import Mathlib

/-
Verification of the token-budget truncation engine of the weblinx repository.

The definitions below are shallow embeddings of the Python functions in
`weblinx/utils/recs.py`, `weblinx/processing/truncation.py` and
`weblinx/processing/prompt.py`.  Python strings are modelled as `List Char`
(`Text`), Python ints as `Int` (token counts, being list lengths, appear as
`Nat` and are cast where the source mixes them), fallible code returns
`Except PyErr`, and the external tokenizer (a `PreTrainedTokenizer` in the
source) is a parameter `tok : Text → List (Nat × Nat)` returning the
offset mapping of the token sequence; the token count of a text is the
length of that list.
-/

/-- Text is modelled as the list of its characters (Python `str`). -/
abbrev Text := List Char

/-- The Python exceptions raised by the embedded functions.  The message
strings of the source are recorded in comments at the raise sites. -/
inductive PyErr where
  | indexError
  | assertionError
  | valueError
  deriving DecidableEq, Repr

instance {ε α : Type} [DecidableEq ε] [DecidableEq α] : DecidableEq (Except ε α) :=
  fun a b =>
    match a, b with
    | .error e1, .error e2 =>
      if h : e1 = e2 then isTrue (congrArg _ h)
      else isFalse (fun hc => h (by injection hc))
    | .error _, .ok _ => isFalse (fun hc => Except.noConfusion hc)
    | .ok _, .error _ => isFalse (fun hc => Except.noConfusion hc)
    | .ok a1, .ok a2 =>
      if h : a1 = a2 then isTrue (congrArg _ h)
      else isFalse (fun hc => h (by injection hc))

/-- Helper loop of `is_list_monotonically_increasing`: Python's
`l = lst[0]; for x in lst[1:]: if x < l: return False; l = x; return True`. -/
def monoFrom (l : Int) : List Int → Bool
  | [] => true
  | x :: xs => if x < l then false else monoFrom x xs

/-- `weblinx.utils.recs.is_list_monotonically_increasing`.  The source reads
`lst[0]` unconditionally, so the empty list raises `IndexError`. -/
def is_list_monotonically_increasing : List Int → Except PyErr Bool
  | [] => .error .indexError
  | l :: rest => .ok (monoFrom l rest)

/-- Exact integer ceiling division, the value of Python's
`math.ceil(a / b)` for a positive divisor (the source divides exactly
representable ints; the float detour of `math.ceil` is modelled exactly). -/
def ceilIntDiv (a b : Int) : Int := -(-a / b)

/-- The `for i, length in enumerate(lengths)` loop of
`reduce_list_of_lengths` (truncation.py lines 102-117).  Arguments: the
remaining lengths, the current index `i`, the previous length (`lengths[i-1]`
or `0`), the running `cumsum`, and the reversed accumulator of appended
`new_lengths`.  Returns `(new_lengths, i, length, cumsum)` as they stand when
the loop `break`s; when the list is exhausted without a break (unreachable
when `sum lengths > max_length`) the stale loop variables are returned, as
in the source. -/
def reduceLoop (n : Nat) (maxLength : Int) :
    List Int → Nat → Int → Int → List Int → (List Int × Nat × Int × Int)
  | [], i, prev, cumsum, acc => (acc.reverse, i - 1, prev, cumsum)
  | l :: rest, i, prev, cumsum, acc =>
    let cumsum2 := cumsum + (l - prev) * ((n : Int) - (i : Int))
    if cumsum2 > maxLength then (acc.reverse, i, l, cumsum2)
    else reduceLoop n maxLength rest (i + 1) l cumsum2 (l :: acc)

/-- `for j in range(len(new_lengths) - diff, len(new_lengths)): new_lengths[j] += 1`
(truncation.py lines 137-138): add 1 to the last `k` entries.  (Python's
negative-index wrap for `diff > len(new_lengths)` is not modelled; the proofs
below establish `diff < num_remaining_records ≤ len(new_lengths)` on every
path that reaches this loop.) -/
def incLastK (l : List Int) (k : Nat) : List Int :=
  l.take (l.length - k) ++ (l.drop (l.length - k)).map (· + 1)

/-- `weblinx.processing.truncation.reduce_list_of_lengths`. -/
def reduce_list_of_lengths (lengths : List Int) (max_length : Int)
    (assert_exactly_max : Bool) : Except PyErr (List Int) :=
  match is_list_monotonically_increasing lengths with
  | .error e => .error e
  | .ok mono =>
    -- assert: "Lengths must be sorted by length"
    if !mono then .error .assertionError
    else
      let total_length := lengths.sum
      if total_length ≤ max_length then .ok lengths
      else if max_length ≤ 0 then .ok (List.replicate lengths.length 0)
      else
        let n := lengths.length
        let res := reduceLoop n max_length lengths 0 0 0 []
        let new_prefix := res.1
        let i := res.2.1
        let len_i := res.2.2.1
        let cumsum := res.2.2.2
        let num_remaining : Nat := n - i
        let diff_per_rec := ceilIntDiv (cumsum - max_length) (num_remaining : Int)
        let final_length := len_i - diff_per_rec
        let new_lengths := new_prefix ++ List.replicate num_remaining final_length
        let diff := max_length - new_lengths.sum
        -- raise ValueError: "Difference must be greater than or equal to 0."
        if diff < 0 then .error .valueError
        else
          let new_lengths2 := incLastK new_lengths diff.toNat
          -- assert: "Total length must be exactly max_length"
          if assert_exactly_max && !(new_lengths2.sum == max_length) then
            .error .assertionError
          else .ok new_lengths2

/-- `weblinx.processing.truncation.get_truncation_offsets`.  `tokens` is the
offset mapping; Python's floor divisions are on non-negative operands on
every reachable call, where `Int` division agrees with them. -/
def get_truncation_offsets (offsets : List (Nat × Nat)) (length : Int)
    (numTokensToRemove : Int) : Nat × Nat :=
  let center := length / 2
  let left := center - numTokensToRemove / 2
  let right := left + numTokensToRemove
  let start_offset := (offsets.getD left.toNat (0, 0)).1
  let end_offset := (offsets.getD (right - 1).toNat (0, 0)).2
  (start_offset, end_offset)

/-- The dictionary returned by `truncate_text_at_center`; a `none` in
`length` or `tokens` models the absence of that key. -/
structure TruncResult where
  text : Option Text
  length : Option Nat
  tokens : Option (List (Nat × Nat))
  deriving DecidableEq, Repr

/-- `weblinx.processing.truncation.truncate_text_at_center` with
`allow_iterative_reduction=False` (the default at every call site the claims
concern; the iterative mode re-runs the same splice with a growing window).
Note the retry-without-ellipsis branch of the source recomputes `text` and
`tokens` but writes neither into the `results` dict, so the returned text is
always the ellipsis splice; this is mirrored here. -/
def truncate_text_at_center (tok : Text → List (Nat × Nat)) (text : Text)
    (maxTokens : Int) (ellipsis : Option Text) (ellipsisLengthArg : Option Nat)
    (assertMaxTokens : Bool) (allowRetryWithoutEllipsis : Bool) :
    Except PyErr TruncResult :=
  -- raise ValueError: "Either ellipsis or ellipsis_length must be specified"
  if ellipsis = none ∧ ellipsisLengthArg = none then .error .valueError
  else
    let ellipsisText := ellipsis.getD []
    let ellipsisLength := ellipsisLengthArg.getD (tok ellipsisText).length
    let tokensOff := tok text
    let length := tokensOff.length
    if (length : Int) ≤ maxTokens then
      .ok { text := some text, length := some length, tokens := none }
    else if maxTokens < (ellipsisLength : Int) then
      .ok { text := none, length := some 0, tokens := none }
    else if maxTokens = (ellipsisLength : Int) then
      .ok { text := some ellipsisText, length := some ellipsisLength, tokens := none }
    else
      let numTokensToRemove : Int := (length : Int) - (maxTokens - (ellipsisLength : Int))
      let off := get_truncation_offsets tokensOff (length : Int) numTokensToRemove
      let newText := text.take off.1 ++ ellipsisText ++ text.drop off.2
      if assertMaxTokens || allowRetryWithoutEllipsis then
        let isOk1 := decide (((tok newText).length : Int) ≤ maxTokens)
        -- the retry recomputes a candidate text but never updates results["text"]
        let retryText := text.take off.1 ++ text.drop off.2
        let isOk := if allowRetryWithoutEllipsis && !isOk1 then
            decide (((tok retryText).length : Int) ≤ maxTokens)
          else isOk1
        -- assert: "# tokens must be less or equal to max_tokens=..."
        if assertMaxTokens && !isOk then .error .assertionError
        else .ok { text := some newText, length := none, tokens := some (tok newText) }
      else .ok { text := some newText, length := none, tokens := none }

/-- A character-level tokenizer: one token per character, identity offsets. -/
def charTok (t : Text) : List (Nat × Nat) :=
  (List.range t.length).map (fun i => (i, i + 1))

/-- A deterministic tokenizer with one subword quirk: the spliced string
"a.e" retokenizes to 4 tokens (as the source's own docstring warns, removing
tokens and splicing the ellipsis can retokenize to a larger count); every
other string tokenizes one token per character. -/
def quirkTok (t : Text) : List (Nat × Nat) :=
  if t = 'a' :: '.' :: 'e' :: [] then [(0, 1), (1, 2), (1, 2), (2, 3)]
  else charTok t

/-- How a multi-attempt driver run ended: within budget, or by falling
through to the direct whole-text truncation. -/
inductive DriverExit where
  | converged
  | fellBack
  deriving DecidableEq, Repr

/-- Outcome of a multi-attempt driver loop together with the number of
measure-then-reduce cycles it performed. -/
structure DriverRun (σ : Type) where
  state : σ
  cycles : Nat
  exit : DriverExit
  deriving DecidableEq, Repr

/-- The `for num_attempts in range(max_attempts)` loop of
`multi_attempt_truncate_dom_tree` (truncation.py lines 451-471), abstracted
over the measurement (`get_tree_repr_simple` + tokenize) and the mutation
(`truncate_dom_tree`, which also receives `num_attempts` because the source
passes `remove_when_none=num_attempts > 1`). -/
def multiAttemptLoop {σ : Type} (measure : σ → Nat) (step : σ → Nat → Nat → σ)
    (maxTokens : Nat) : Nat → Nat → σ → DriverRun σ
  | 0, numAttempts, s => ⟨s, numAttempts, .fellBack⟩
  | rem + 1, numAttempts, s =>
    let numTokens := measure s
    if numTokens ≤ maxTokens then ⟨s, numAttempts, .converged⟩
    else multiAttemptLoop measure step maxTokens rem (numAttempts + 1)
      (step s (numTokens - maxTokens) numAttempts)

/-- The retry loop of `multi_attempt_truncate_dom_tree`: it iterates
`range(max_attempts)`. -/
def multi_attempt_truncate_dom_tree_loop {σ : Type} (measure : σ → Nat)
    (step : σ → Nat → Nat → σ) (maxTokens maxAttempts : Nat) (s : σ) : DriverRun σ :=
  multiAttemptLoop measure step maxTokens maxAttempts 0 s

/-- The retry loop of `multi_attempt_truncate_cands_turn` (truncation.py
line 666): it iterates `range(max_attempts + 1)`, and its check
`num_tokens_to_remove <= 0` is the comparison `measure s ≤ maxTokens`;
`truncate_cands_turn` does not receive the attempt number. -/
def multi_attempt_truncate_cands_turn_loop {σ : Type} (measure : σ → Nat)
    (step : σ → Nat → σ) (maxTokens maxAttempts : Nat) (s : σ) : DriverRun σ :=
  multiAttemptLoop measure (fun s excess _ => step s excess) maxTokens
    (maxAttempts + 1) 0 s

/-- The `for _ in range(max_attempts)` loop of
`multi_attempt_format_prev_turns_truncated` (prompt.py lines 395-418):
each iteration formats with `num_tokens_to_remove` computed from the
previous measurement, re-measures, and returns when within budget.
`render` is `format_prev_turns_truncated` (joined to a string), `measure`
the tokenizer. -/
def prevTurnsGo {σ : Type} (render : Int → σ) (measure : σ → Nat)
    (maxTokens : Int) : Nat → Nat → Nat → σ → DriverRun σ
  | 0, cycles, _cur, lastFormatted => ⟨lastFormatted, cycles, .fellBack⟩
  | rem + 1, cycles, cur, _lastFormatted =>
    let numTokensToRemove : Int := (cur : Int) - maxTokens
    let formatted := render numTokensToRemove
    let newTokens := measure formatted
    if (newTokens : Int) ≤ maxTokens then ⟨formatted, cycles + 1, .converged⟩
    else prevTurnsGo render measure maxTokens rem (cycles + 1) newTokens formatted

/-- The retry loop of `multi_attempt_format_prev_turns_truncated`; the
initial measurement tokenizes the formatting with `num_tokens_to_remove=0`. -/
def multi_attempt_format_prev_turns_loop {σ : Type} (render : Int → σ)
    (measure : σ → Nat) (maxTokens : Int) (maxAttempts : Nat) (s0 : σ) : DriverRun σ :=
  prevTurnsGo render measure maxTokens maxAttempts 0 (measure (render 0)) s0

/-- Stable insertion of `r` into a list sorted ascending by `key`: `r` goes
before the first element of equal or larger key, matching the stability of
Python's `sorted`. -/
def insertByKey {α : Type} (key : α → Nat) (r : α) : List α → List α
  | [] => [r]
  | x :: xs => if key r ≤ key x then r :: x :: xs else x :: insertByKey key r xs

/-- Stable ascending sort by `key` (the semantics of Python's
`sorted(records, key=...)`). -/
def sortByKey {α : Type} (key : α → Nat) : List α → List α
  | [] => []
  | x :: xs => insertByKey key x (sortByKey key xs)

/-- A DOM node of the lxml tree, addressed by an identifier so that the
write-back mutations of the source (which go through direct node handles)
can be modelled as updates of the node list.  lxml attribute values are
strings; the value type is `Option Text` because `truncate_dom_tree`
assigns `None` into `node.attrib` on one of its paths (under real lxml that
assignment raises `TypeError`; keeping the slot optional keeps the embedding
total and makes that path's effect visible). -/
structure DomNode where
  id : Nat
  text : Option Text
  attrib : List (String × Option Text)
  deriving DecidableEq, Repr

/-- Python's `str.strip()`: remove leading and trailing whitespace. -/
def pyStrip (t : Text) : Text :=
  ((t.dropWhile Char.isWhitespace).reverse.dropWhile Char.isWhitespace).reverse

/-- One entry of the record list built by
`build_records_of_tokens_for_dom_tree`; `key := none` models the text
records, whose Python dict has no "key" entry. -/
structure DomRecord where
  node : Nat
  type : String
  key : Option String
  text : Option Text
  length : Nat
  deriving DecidableEq, Repr

/-- The records contributed by a single node: one for its (stripped) text,
then one per attribute, in attribute order. -/
def buildDomNodeRecords (tok : Text → List (Nat × Nat)) (node : DomNode) :
    List DomRecord :=
  let text := match node.text with
    | none => []
    | some t => pyStrip t
  { node := node.id, type := "text", key := none, text := some text,
    length := (tok text).length }
    :: node.attrib.map (fun kv =>
      { node := node.id, type := "attrib", key := some kv.1, text := kv.2,
        length := (tok (kv.2.getD [])).length })

/-- `weblinx.processing.truncation.build_records_of_tokens_for_dom_tree`.
The source tokenizes all record texts in one batch and attaches the
lengths afterwards; per-record tokenization yields the same lengths. -/
def build_records_of_tokens_for_dom_tree (tok : Text → List (Nat × Nat))
    (tree : List DomNode) (sortedByLength : Bool) : List DomRecord :=
  let records := (tree.map (buildDomNodeRecords tok)).flatten
  if sortedByLength then sortByKey (fun r => r.length) records else records

/-- A write-back effect of the record loop of `truncate_dom_tree`:
`node.text = v`, `node.attrib.pop(key)`, or `node.attrib[key] = v`. -/
inductive DomAction where
  | setText (node : Nat) (v : Option Text)
  | popAttr (node : Nat) (key : String)
  | setAttr (node : Nat) (key : String) (v : Option Text)
  deriving DecidableEq, Repr

/-- The body of the record loop of `truncate_dom_tree` (truncation.py lines
383-426) for one record and its reduced length: either no effect (`none`),
or one write-back action.  `ellipsisLength` is the precomputed ellipsis
token count; the inner `truncate_text_at_center` call receives
`ellipsis_length` but not `ellipsis`, so the spliced marker is the default
`"..."` (as in the source). -/
def process_record (tok : Text → List (Nat × Nat)) (ellipsisLength : Nat)
    (removeWhenNone : Bool) (r : DomRecord) (redLength : Int) :
    Except PyErr (Option DomAction) :=
  if redLength ≥ (r.length : Int) then .ok none
  else if redLength = 0 then
    if r.type = "text" then .ok (some (.setText r.node none))
    -- raise ValueError: "Unknown type: ... Must be 'text' or 'attrib'"
    else if r.type ≠ "attrib" then .error .valueError
    else if removeWhenNone ∧ r.text = none then
      .ok (some (.popAttr r.node (r.key.getD (""))))
    else .ok (some (.setAttr r.node (r.key.getD ("")) none))
  else
    match truncate_text_at_center tok (r.text.getD []) redLength
        (some ('.' :: '.' :: '.' :: [])) (some ellipsisLength) false true with
    | .error e => .error e
    | .ok trunc =>
      if r.type = "text" then .ok (some (.setText r.node trunc.text))
      else if r.type ≠ "attrib" then .error .valueError
      else if removeWhenNone ∧ trunc.text = none then
        .ok (some (.popAttr r.node (r.key.getD (""))))
      else .ok (some (.setAttr r.node (r.key.getD ("")) trunc.text))

/-- Apply one write-back action to the tree. -/
def applyDomAction (tree : List DomNode) : DomAction → List DomNode
  | .setText nid v =>
    tree.map (fun nd => if nd.id = nid then { nd with text := v } else nd)
  | .popAttr nid k =>
    tree.map (fun nd => if nd.id = nid then
      { nd with attrib := nd.attrib.filter (fun kv => kv.1 ≠ k) } else nd)
  | .setAttr nid k v =>
    tree.map (fun nd => if nd.id = nid then
      { nd with attrib := nd.attrib.map (fun kv => if kv.1 = k then (kv.1, v) else kv) }
      else nd)

/-- `weblinx.processing.truncation.truncate_dom_tree` (with `copy=True`
modelled by purity and `allow_iterative_reduction=False`). -/
def truncate_dom_tree (tok : Text → List (Nat × Nat)) (tree : List DomNode)
    (numTokensToRemove : Int) (ellipsis : Text) (removeWhenNone : Bool) :
    Except PyErr (List DomNode) :=
  let ellipsisLength := (tok ellipsis).length
  let records := build_records_of_tokens_for_dom_tree tok tree true
  let lengths_orig := records.map (fun r => (r.length : Int))
  let max_total_length := lengths_orig.sum - numTokensToRemove
  match reduce_list_of_lengths lengths_orig max_total_length true with
  | .error e => .error e
  | .ok lengths_reduced =>
    (records.zip lengths_reduced).foldlM (fun tr rr =>
      match process_record tok ellipsisLength removeWhenNone rr.1 rr.2 with
      | .error e => .error e
      | .ok none => .ok tr
      | .ok (some a) => .ok (applyDomAction tr a)) tree

/-- A candidate of a `cands_turn` list: its element dictionary and its
rendered "doc" string.  Dictionary values are `Option Text`; numeric and
collection values of the source are modelled by their serialized string
(`str(value)` / `json.dumps(value)`), which is all the truncation engine
reads of them. -/
structure Cand where
  elem_dict : List (String × Option Text)
  doc : Text
  deriving DecidableEq, Repr

/-- One entry of the record list of `truncate_cands_turn`.  The source also
stores the candidate handle and the token list; write-back goes through
`index` and only the token count of `tokens` is read, so they are omitted. -/
structure CandRecord where
  index : Nat
  key : String
  value : Text
  length : Nat
  deriving DecidableEq, Repr

/-- The record-building double loop of `truncate_cands_turn` (truncation.py
lines 589-617): protected keys and `None` values are skipped. -/
def buildCandRecords (tok : Text → List (Nat × Nat)) (cands : List Cand)
    (protectedKeys : List String) : List CandRecord :=
  (cands.enum.map (fun tc =>
    tc.2.elem_dict.filterMap (fun kv =>
      if kv.1 ∈ protectedKeys then none
      else match kv.2 with
        | none => none
        | some v =>
          some { index := tc.1, key := kv.1, value := v, length := (tok v).length }))).flatten

/-- Python's rendering of an optional string inside an f-string:
`None` prints as "None". -/
def pyShowOpt (v : Option Text) : Text :=
  match v with
  | none => ("None").data
  | some t => t

/-- Python's `value in [None, ""]`. -/
def isEmptyVal (v : Option Text) : Bool := v = none || v = some []

/-- `weblinx.processing.truncation.convert_elem_dict_to_str`: the six main
keys in fixed order, then the remaining keys in dictionary order. -/
def convert_elem_dict_to_str (elemDict : List (String × Option Text))
    (removeEmpty : Bool) : Text :=
  let mainKeys := ["tag", "xpath", "text", "bbox", "attributes", "children"]
  let mainPart := mainKeys.foldl (fun acc k =>
    match elemDict.lookup k with
    | none => acc
    | some v =>
      if removeEmpty && isEmptyVal v then acc
      else acc ++ ("[[").data ++ k.data ++ ("]] ").data ++ pyShowOpt v ++ '\n' :: []) []
  let rest := (elemDict.filter (fun kv => !(mainKeys.contains kv.1))).foldl
    (fun acc kv =>
      if removeEmpty && isEmptyVal kv.2 then acc
      else acc ++ '\n' :: [] ++ ("[[").data ++ kv.1.data ++ ("]] ").data ++ pyShowOpt kv.2) []
  mainPart ++ rest

/-- `elem_dict[key] = v` on the association-list model of a Python dict
(keys are unique, so replacing every matching entry is the dict update). -/
def setDictValue (d : List (String × Option Text)) (k : String) (v : Option Text) :
    List (String × Option Text) :=
  d.map (fun kv => if kv.1 = k then (kv.1, v) else kv)

/-- `cands_turn[idx]["elem_dict"][k] = v`; record indices always come from
`enumerate`, so the out-of-range arm is unreachable. -/
def setCandValue (cands : List Cand) (idx : Nat) (k : String) (v : Option Text) :
    List Cand :=
  match cands[idx]? with
  | none => cands
  | some c => cands.set idx { c with elem_dict := setDictValue c.elem_dict k v }

/-- One iteration of the write-back loop of `truncate_cands_turn`
(truncation.py lines 626-639) for a record paired with its reduced length:
skip when nothing shrank, else center-truncate the value and write
`trunc["text"]` into the owning candidate's `elem_dict`. -/
def candWriteStep (tok : Text → List (Nat × Nat)) (cs : List Cand)
    (rr : CandRecord × Int) : Except PyErr (List Cand) :=
  if rr.2 ≥ (rr.1.length : Int) then .ok cs
  else
    match truncate_text_at_center tok rr.1.value rr.2
        (some ('.' :: '.' :: '.' :: [])) none false true with
    | .error e => .error e
    | .ok trunc => .ok (setCandValue cs rr.1.index rr.1.key trunc.text)

/-- `weblinx.processing.truncation.truncate_cands_turn` (with `copy=True`
modelled by purity and `allow_iterative_reduction=False`). -/
def truncate_cands_turn (tok : Text → List (Nat × Nat)) (cands : List Cand)
    (numTokensToRemove : Int) (protectedKeys : List String) (removeEmpty : Bool) :
    Except PyErr (List Cand) :=
  if numTokensToRemove ≤ 0 then .ok cands
  else
    let records := sortByKey (fun r => r.length) (buildCandRecords tok cands protectedKeys)
    let lengths_orig := records.map (fun r => (r.length : Int))
    let max_total_length := lengths_orig.sum - numTokensToRemove
    match reduce_list_of_lengths lengths_orig max_total_length true with
    | .error e => .error e
    | .ok lengths_reduced =>
      match (records.zip lengths_reduced).foldlM (candWriteStep tok) cands with
      | .error e => .error e
      | .ok cs =>
        .ok (cs.map (fun c => { c with doc := convert_elem_dict_to_str c.elem_dict removeEmpty }))

/-- The length preceding index `i` in the reducer's walk: `lengths[i-1]` for
`i > 0` and `0` at the start (specification-side shorthand for the `prev_length`
of the source's loop). -/
def prevOf (L : List Int) (i : Nat) : Int := if i = 0 then 0 else L.getD (i - 1) 0

/-- The water-level sum `Σ min(L_j, c)`: the total of the vector obtained by
clamping every length to the level `c`.  Used to characterize the reducer's
output. -/
def minSum (L : List Int) (c : Int) : Int := (L.map (fun x => min x c)).sum

/-! Helper lemmas about the driver loops. -/

theorem multiAttemptLoop_cycles_le {σ : Type} (measure : σ → Nat)
    (step : σ → Nat → Nat → σ) (maxTokens : Nat) :
    ∀ (rem start : Nat) (s : σ),
      (multiAttemptLoop measure step maxTokens rem start s).cycles ≤ start + rem := by
  intro rem
  induction rem with
  | zero => intro start s; simp [multiAttemptLoop]
  | succ r ih =>
    intro start s
    simp only [multiAttemptLoop]
    split
    · simp
    · exact le_trans (ih (start + 1) _) (by omega)

theorem prevTurnsGo_cycles_le {σ : Type} (render : Int → σ) (measure : σ → Nat)
    (maxTokens : Int) :
    ∀ (rem start cur : Nat) (s : σ),
      (prevTurnsGo render measure maxTokens rem start cur s).cycles ≤ start + rem := by
  intro rem
  induction rem with
  | zero => intro start cur s; simp [prevTurnsGo]
  | succ r ih =>
    intro start cur s
    simp only [prevTurnsGo]
    split
    · simp
    · exact le_trans (ih (start + 1) _ _) (by omega)

/-- Claim C3 (amended): the DOM-tree driver and the previous-turns driver
perform at most `max_attempts` measure-then-reduce cycles before converging
or entering the direct fallback truncation; the candidate-list driver,
whose loop iterates `range(max_attempts + 1)`, performs at most
`max_attempts + 1` such cycles. -/
theorem claim_C3 {σ : Type} (measure : σ → Nat) (stepDom : σ → Nat → Nat → σ)
    (stepCands : σ → Nat → σ) (render : Int → σ) (maxTokensN maxAttempts : Nat)
    (maxTokensI : Int) (s : σ) :
    (multi_attempt_truncate_dom_tree_loop measure stepDom maxTokensN maxAttempts s).cycles
        ≤ maxAttempts ∧
    (multi_attempt_format_prev_turns_loop render measure maxTokensI maxAttempts s).cycles
        ≤ maxAttempts ∧
    (multi_attempt_truncate_cands_turn_loop measure stepCands maxTokensN maxAttempts s).cycles
        ≤ maxAttempts + 1 := by
  refine ⟨?_, ?_, ?_⟩
  · simpa using multiAttemptLoop_cycles_le measure stepDom maxTokensN maxAttempts 0 s
  · simpa using prevTurnsGo_cycles_le render measure maxTokensI maxAttempts 0
      (measure (render 0)) s
  · simpa using multiAttemptLoop_cycles_le measure (fun s excess _ => stepCands s excess)
      maxTokensN (maxAttempts + 1) 0 s

/-- Claim C3, counterexample to the claim as stated: with the default
`max_attempts = 5` and a measurement that never fits the budget, the
candidate-list driver performs 6 measure-then-reduce cycles before its
fallback, not at most 5. -/
theorem claim_C3_counterexample :
    (multi_attempt_truncate_cands_turn_loop (fun _ : Unit => 1000) (fun s _ => s)
        10 5 ()).cycles = 6 ∧
    ¬ (multi_attempt_truncate_cands_turn_loop (fun _ : Unit => 1000) (fun s _ => s)
        10 5 ()).cycles ≤ 5 := by
  exact ⟨rfl, by decide⟩

/-- Claim C10: calling `reduce_list_of_lengths` on an empty list raises
`IndexError` for every `max_length` (the sortedness precondition check reads
`lst[0]` unconditionally), instead of returning an empty list. -/
theorem claim_C10 (max_length : Int) (assert_exactly_max : Bool) :
    reduce_list_of_lengths [] max_length assert_exactly_max = .error .indexError := rfl

/-- Claim C9: when the text's token count is within budget,
`truncate_text_at_center` returns the input text byte-identical with its
token count as length (in particular no ellipsis is spliced in), for every
tokenizer, ellipsis, and flag setting. -/
theorem claim_C9 (tok : Text → List (Nat × Nat)) (text e : Text) (maxT : Int)
    (aF rF : Bool) (h : ((tok text).length : Int) ≤ maxT) :
    truncate_text_at_center tok text maxT (some e) none aF rF
      = .ok { text := some text, length := some (tok text).length, tokens := none } := by
  simp [truncate_text_at_center, h]

/-- Witness for claim C9 at a concrete input. -/
theorem claim_C9_witness :
    truncate_text_at_center charTok ('h' :: 'i' :: []) 5 (some ('.' :: [])) none false true
      = .ok { text := some ('h' :: 'i' :: []), length := some 2, tokens := none } :=
  claim_C9 charTok ('h' :: 'i' :: []) ('.' :: []) 5 false true (by decide)

/-- Claim C5 (amended): the text field of the result of
`truncate_text_at_center` is null (with length 0) iff the budget is below
the ellipsis cost AND the text actually needs truncation; a text already
within budget is returned as-is even when `max_tokens < token_count(ellipsis)`. -/
theorem claim_C5 (tok : Text → List (Nat × Nat)) (text e : Text) (maxT : Int)
    (aF rF : Bool) (r : TruncResult)
    (h : truncate_text_at_center tok text maxT (some e) none aF rF = .ok r) :
    (r.text = none ↔
      (maxT < ((tok e).length : Int) ∧ maxT < ((tok text).length : Int))) ∧
    (r.text = none → r.length = some 0) := by
  have hne : ¬ ((some e = none) ∧ ((none : Option Nat) = none)) := by simp
  rw [truncate_text_at_center, if_neg hne] at h
  simp only [Option.getD_some, Option.getD_none] at h
  by_cases hA : (((tok text).length : Nat) : Int) ≤ maxT
  · rw [if_pos hA] at h
    obtain rfl := Except.ok.inj h
    refine ⟨⟨fun hf => by simp at hf, fun hf => absurd hA (not_le.mpr hf.2)⟩,
      fun hf => by simp at hf⟩
  · rw [if_neg hA] at h
    by_cases hB : maxT < (((tok e).length : Nat) : Int)
    · rw [if_pos hB] at h
      obtain rfl := Except.ok.inj h
      exact ⟨⟨fun _ => ⟨hB, not_le.mp hA⟩, fun _ => rfl⟩, fun _ => rfl⟩
    · rw [if_neg hB] at h
      by_cases hC : maxT = (((tok e).length : Nat) : Int)
      · rw [if_pos hC] at h
        obtain rfl := Except.ok.inj h
        refine ⟨⟨fun hf => by simp at hf, fun hf => absurd hf.1 hB⟩,
          fun hf => by simp at hf⟩
      · rw [if_neg hC] at h
        have hsome : ∃ t, r.text = some t := by
          repeat' split at h
          all_goals try exact ⟨_, by rw [← Except.ok.inj h]⟩
          all_goals simp at h
        obtain ⟨t, ht⟩ := hsome
        refine ⟨⟨fun hf => by rw [ht] at hf; simp at hf, fun hf => absurd hf.1 hB⟩,
          fun hf => by rw [ht] at hf; simp at hf⟩

/-- Witness for claim C5 at a concrete input ("hello" under the
character tokenizer, budget 2, ellipsis "."). -/
theorem claim_C5_witness :
    ((TruncResult.mk (some ('.' :: 'o' :: [])) none
        (some (charTok ('.' :: 'o' :: [])))).text = none ↔
      ((2 : Int) < ((charTok ('.' :: [])).length : Int) ∧
       (2 : Int) < ((charTok ("hello").data).length : Int))) ∧
    ((TruncResult.mk (some ('.' :: 'o' :: [])) none
        (some (charTok ('.' :: 'o' :: [])))).text = none →
      (TruncResult.mk (some ('.' :: 'o' :: [])) none
        (some (charTok ('.' :: 'o' :: [])))).length = some 0) :=
  claim_C5 charTok ("hello").data ('.' :: []) 2 false true _ rfl

/-- Claim C5, counterexample to the claim as stated: for the empty text
under the character tokenizer with budget 0 and ellipsis "...", the budget
is below the ellipsis cost yet the returned text is the (non-null) input,
because the within-budget fast path is checked first. -/
theorem claim_C5_counterexample :
    ¬ (∀ r, truncate_text_at_center charTok [] 0 (some ('.' :: '.' :: '.' :: []))
          none false true = .ok r →
        (r.text = none ↔ (0 : Int) < ((charTok ('.' :: '.' :: '.' :: [])).length : Int))) := by
  intro hclaim
  have h := hclaim { text := some [], length := some 0, tokens := none } rfl
  have h2 : (0 : Int) < ((charTok ('.' :: '.' :: '.' :: [])).length : Int) := by decide
  have h3 := h.mpr h2
  simp at h3

/-- Claim C6: evaluation of the record-loop body of `truncate_dom_tree` at a
record whose reduced length is 0 while its original length is positive.
A text record has its node's text cleared (first conjunct, as the claim
states), but an attribute record with `remove_when_none=True` does NOT have
the attribute removed: the source tests `r["text"] is None` — the original
attribute value, which `build_records_of_tokens_for_dom_tree` always sets to
a string — instead of the truncation outcome, so it falls into the branch
that assigns `None` to the attribute (an assignment real lxml rejects with
`TypeError`).  Compare the sibling non-zero branch, which correctly tests
`trunc["text"] is None`. -/
theorem claim_C6 :
    (process_record charTok 1 true
        { node := 7, type := "text", key := none,
          text := some (("verylong").data), length := 8 } 0
      = .ok (some (.setText 7 none))) ∧
    (process_record charTok 1 true
        { node := 7, type := "attrib", key := some ("class"),
          text := some (("verylong").data), length := 8 } 0
      = .ok (some (.setAttr 7 ("class") none))) ∧
    ¬ (process_record charTok 1 true
        { node := 7, type := "attrib", key := some ("class"),
          text := some (("verylong").data), length := 8 } 0
      = .ok (some (.popAttr 7 ("class")))) := by
  refine ⟨rfl, rfl, by decide⟩

/-- The attribute half of claim C6, universally: for every tokenizer, every
attribute record whose `text` field is a string (as every record built by
`build_records_of_tokens_for_dom_tree` is), and every positive original
length, reducing to length 0 with `remove_when_none=True` assigns `None` to
the attribute rather than popping it. -/
theorem process_record_zero_attrib_sets_none (tok : Text → List (Nat × Nat))
    (ellipsisLength : Nat) (r : DomRecord) (v : Text)
    (htype : r.type = "attrib") (htext : r.text = some v) (hlen : 0 < r.length) :
    process_record tok ellipsisLength true r 0
      = .ok (some (.setAttr r.node (r.key.getD ("")) none)) := by
  rw [process_record]
  rw [if_neg (by simp; omega), if_pos rfl, if_neg (by rw [htype]; simp),
    if_neg (by rw [htype]; simp), if_neg (by rw [htext]; simp)]

/-- Witness for `process_record_zero_attrib_sets_none` at a concrete record. -/
theorem process_record_zero_attrib_sets_none_witness :
    process_record charTok 1 true
      { node := 3, type := "attrib", key := some ("id"),
        text := some ('x' :: []), length := 1 } 0
      = .ok (some (.setAttr 3 ("id") none)) :=
  process_record_zero_attrib_sets_none charTok 1 _ ('x' :: []) rfl rfl (by decide)

/-! Facts about the character tokenizer. -/

theorem charTok_length (t : Text) : (charTok t).length = t.length := by
  simp [charTok]

theorem charTok_getD (t : Text) (j : Nat) (hj : j < t.length) :
    (charTok t).getD j (0, 0) = (j, j + 1) := by
  rw [List.getD_eq_getElem?_getD, charTok, List.getElem?_map, List.getElem?_range hj]
  rfl

/-- The truncation offsets computed from a character tokenizer's offset
mapping: character positions `left` and `left + num`. -/
theorem charTok_offsets (t : Text) (num : Int) (h1 : 1 ≤ num)
    (h2 : num ≤ (t.length : Int) - 1) :
    get_truncation_offsets (charTok t) (t.length : Int) num
      = (((t.length : Int) / 2 - num / 2).toNat,
         ((t.length : Int) / 2 - num / 2 + num).toNat) := by
  have hL : (1 : Int) ≤ (t.length : Int) := by omega
  have hleft0 : 0 ≤ (t.length : Int) / 2 - num / 2 := by omega
  have hleft : ((t.length : Int) / 2 - num / 2).toNat < t.length := by omega
  have hright1 : 1 ≤ (t.length : Int) / 2 - num / 2 + num := by omega
  have hrightL : (t.length : Int) / 2 - num / 2 + num ≤ (t.length : Int) := by omega
  have hrt : ((t.length : Int) / 2 - num / 2 + num - 1).toNat < t.length := by omega
  simp only [get_truncation_offsets]
  rw [charTok_getD t _ hleft, charTok_getD t _ hrt]
  simp only [Prod.mk.injEq]
  constructor
  · trivial
  · omega

/-- Claim C2 (amended): whenever `max_tokens ≥ token_count(ellipsis)`, the
result of `truncate_text_at_center` (default options) has non-null text for
every tokenizer; and for a character-level tokenizer its re-tokenized count
is at most `max_tokens`.  For a general tokenizer the re-tokenized count can
exceed the budget (the source computes a retry without the ellipsis but
never writes it into the returned dict, and with the default options no
bound is enforced); see the counterexample. -/
theorem claim_C2 :
    (∀ (tok : Text → List (Nat × Nat)) (text e : Text) (maxT : Int),
        ((tok e).length : Int) ≤ maxT →
        ∃ r, truncate_text_at_center tok text maxT (some e) none false true = .ok r ∧
          r.text ≠ none) ∧
    (∀ (text e : Text) (maxT : Int),
        ((charTok e).length : Int) ≤ maxT →
        ∃ r, truncate_text_at_center charTok text maxT (some e) none false true = .ok r ∧
          ∀ t, r.text = some t → ((charTok t).length : Int) ≤ maxT) := by
  constructor
  · intro tok text e maxT hEl
    have hne : ¬ ((some e = none) ∧ ((none : Option Nat) = none)) := by simp
    rw [truncate_text_at_center, if_neg hne]
    simp only [Option.getD_some, Option.getD_none]
    by_cases hA : (((tok text).length : Nat) : Int) ≤ maxT
    · rw [if_pos hA]
      exact ⟨_, rfl, by simp⟩
    · rw [if_neg hA, if_neg (not_lt.mpr hEl)]
      by_cases hC : maxT = (((tok e).length : Nat) : Int)
      · rw [if_pos hC]
        exact ⟨_, rfl, by simp⟩
      · rw [if_neg hC]
        exact ⟨_, rfl, by simp⟩
  · intro text e maxT hEl
    have hne : ¬ ((some e = none) ∧ ((none : Option Nat) = none)) := by simp
    rw [truncate_text_at_center, if_neg hne]
    simp only [Option.getD_some, Option.getD_none]
    by_cases hA : (((charTok text).length : Nat) : Int) ≤ maxT
    · rw [if_pos hA]
      refine ⟨_, rfl, ?_⟩
      intro t ht
      obtain rfl := Option.some.inj ht
      exact hA
    · rw [if_neg hA, if_neg (not_lt.mpr hEl)]
      by_cases hC : maxT = (((charTok e).length : Nat) : Int)
      · rw [if_pos hC]
        refine ⟨_, rfl, ?_⟩
        intro t ht
        obtain rfl := Option.some.inj ht
        omega
      · rw [if_neg hC]
        refine ⟨_, rfl, ?_⟩
        intro t ht
        obtain rfl := Option.some.inj ht
        simp only [charTok_length] at hA hC hEl ⊢
        have h1 : 1 ≤ (text.length : Int) - (maxT - (e.length : Int)) := by omega
        have h2 : (text.length : Int) - (maxT - (e.length : Int))
            ≤ (text.length : Int) - 1 := by omega
        rw [charTok_offsets text _ h1 h2]
        simp only [List.length_append, List.length_take, List.length_drop]
        omega

/-- Claim C2, counterexample to the claim as stated: under a tokenizer with
a subword quirk (the spliced string "a.e" retokenizes to 4 tokens), text
"abcde" with budget 3 and ellipsis "." satisfies
`max_tokens ≥ token_count(ellipsis)` yet the returned text retokenizes to
4 > 3 tokens. -/
theorem claim_C2_counterexample :
    ((quirkTok ('.' :: [])).length : Int) ≤ 3 ∧
    ¬ (∀ r, truncate_text_at_center quirkTok ("abcde").data 3 (some ('.' :: []))
          none false true = .ok r →
        ∀ t, r.text = some t → ((quirkTok t).length : Int) ≤ 3) := by
  refine ⟨by decide, ?_⟩
  intro hclaim
  have h := hclaim
    (TruncResult.mk (some ('a' :: '.' :: 'e' :: [])) none
      (some (quirkTok ('a' :: '.' :: 'e' :: [])))) rfl
    ('a' :: '.' :: 'e' :: []) rfl
  revert h
  decide

/-- Witness for claim C2 at a concrete input ("hello", ellipsis ".",
budget 2, character tokenizer). -/
theorem claim_C2_witness :
    (∃ r, truncate_text_at_center charTok ("hello").data 2 (some ('.' :: []))
        none false true = .ok r ∧ r.text ≠ none) ∧
    (∃ r, truncate_text_at_center charTok ("hello").data 2 (some ('.' :: []))
        none false true = .ok r ∧
      ∀ t, r.text = some t → ((charTok t).length : Int) ≤ 2) :=
  ⟨claim_C2.1 charTok ("hello").data ('.' :: []) 2 (by decide),
   claim_C2.2 ("hello").data ('.' :: []) 2 (by decide)⟩

/-! Basic facts about the sortedness check and ceiling division. -/

theorem monoFrom_iff (l : Int) (xs : List Int) :
    monoFrom l xs = true ↔ List.Chain' (· ≤ ·) (l :: xs) := by
  induction xs generalizing l with
  | nil => simp [monoFrom]
  | cons x xs ih =>
    rw [monoFrom]
    by_cases hx : x < l
    · simp [hx, List.chain'_cons, not_le.mpr hx]
    · simp [hx, List.chain'_cons, not_lt.mp hx, ih]

theorem is_mono_ok_iff (L : List Int) :
    is_list_monotonically_increasing L = .ok true ↔
      L ≠ [] ∧ List.Chain' (· ≤ ·) L := by
  cases L with
  | nil => simp [is_list_monotonically_increasing]
  | cons l rest =>
    rw [is_list_monotonically_increasing]
    constructor
    · intro h
      exact ⟨by simp, (monoFrom_iff l rest).mp (Except.ok.inj h)⟩
    · intro h
      rw [(monoFrom_iff l rest).mpr h.2]

theorem ceilIntDiv_le_iff {a b c : Int} (hb : 0 < b) :
    ceilIntDiv a b ≤ c ↔ a ≤ b * c := by
  unfold ceilIntDiv
  rw [neg_le, Int.le_ediv_iff_mul_le hb, neg_mul, neg_le_neg_iff, mul_comm]

theorem ceilIntDiv_pos {a b : Int} (hb : 0 < b) (ha : 0 < a) :
    1 ≤ ceilIntDiv a b := by
  by_contra h
  have h2 : ceilIntDiv a b ≤ 0 := by omega
  have := (ceilIntDiv_le_iff hb).mp h2
  omega

theorem le_mul_ceilIntDiv {a b : Int} (hb : 0 < b) : a ≤ b * ceilIntDiv a b :=
  (ceilIntDiv_le_iff hb).mp le_rfl

/-! Indexing helpers. -/

theorem getD_append_lt {l1 l2 : List Int} {j : Nat} (h : j < l1.length) :
    (l1 ++ l2).getD j 0 = l1.getD j 0 := by
  rw [List.getD_eq_getElem?_getD, List.getD_eq_getElem?_getD,
    List.getElem?_append, if_pos h]

theorem getD_append_length (l1 l2 : List Int) (x : Int) :
    (l1 ++ x :: l2).getD l1.length 0 = x := by
  rw [List.getD_eq_getElem?_getD, List.getElem?_append_right le_rfl]
  simp

theorem getD_take_eq {L : List Int} {i j : Nat} (h : j < i) :
    (L.take i).getD j 0 = L.getD j 0 := by
  rw [List.getD_eq_getElem?_getD, List.getD_eq_getElem?_getD,
    List.getElem?_take, if_pos h]

theorem getD_replicate_lt {c : Int} {a j : Nat} (h : j < a) :
    (List.replicate a c).getD j 0 = c := by
  rw [List.getD_eq_getElem?_getD, List.getElem?_replicate, if_pos h]
  rfl

theorem getD_mem {L : List Int} {j : Nat} (h : j < L.length) :
    L.getD j 0 ∈ L := by
  rw [List.getD_eq_getElem L 0 h]
  exact List.getElem_mem h

theorem getD_mem_take {L : List Int} {i j : Nat} (hj : j < i) (hj2 : j < L.length) :
    L.getD j 0 ∈ L.take i := by
  rw [← getD_take_eq hj]
  exact getD_mem (by simp; omega)

theorem getD_mem_drop {L : List Int} {i j : Nat} (hj : i ≤ j) (hj2 : j < L.length) :
    L.getD j 0 ∈ L.drop i := by
  have hidx : i + (j - i) = j := by omega
  have heq : (L.drop i).getD (j - i) 0 = L.getD j 0 := by
    rw [List.getD_eq_getElem?_getD, List.getD_eq_getElem?_getD, List.getElem?_drop, hidx]
  rw [← heq]
  exact getD_mem (by rw [List.length_drop]; omega)

/-! Sum helpers. -/

theorem sum_replicate_int (a : Nat) (c : Int) :
    (List.replicate a c).sum = (a : Int) * c := by
  rw [List.sum_replicate, nsmul_eq_mul]

theorem sum_nonneg_int {L : List Int} (h : ∀ x ∈ L, 0 ≤ x) : 0 ≤ L.sum := by
  induction L with
  | nil => simp
  | cons x xs ih =>
    simp only [List.sum_cons]
    have h1 := h x (by simp)
    have h2 := ih (fun y hy => h y (List.mem_cons_of_mem x hy))
    omega

theorem all_zero_of_sum_zero {L : List Int} (h : ∀ x ∈ L, 0 ≤ x) (hs : L.sum ≤ 0) :
    ∀ x ∈ L, x = 0 := by
  induction L with
  | nil => simp
  | cons x xs ih =>
    simp only [List.sum_cons] at hs
    have h1 := h x (by simp)
    have h2 := sum_nonneg_int (fun y hy => h y (List.mem_cons_of_mem x hy))
    intro y hy
    rcases List.mem_cons.mp hy with h3 | h3
    · omega
    · exact ih (fun z hz => h z (List.mem_cons_of_mem x hz)) (by omega) y h3

/-! Lemmas about the structural shape `A ++ replicate a f ++ replicate b (f+1)`
of the reducer's output. -/

theorem incLastK_split (A : List Int) (c k : Nat) (f : Int) (hk : k ≤ c) :
    incLastK (A ++ List.replicate c f) k
      = A ++ List.replicate (c - k) f ++ List.replicate k (f + 1) := by
  unfold incLastK
  have hlen : (A ++ List.replicate c f).length = A.length + c := by simp
  have hsub : A.length + c - k = A.length + (c - k) := by omega
  rw [hlen, hsub, List.take_append, List.drop_append, List.take_replicate,
    List.drop_replicate, List.map_replicate]
  have h1 : (c - k) ⊓ c = c - k := by omega
  have h2 : c - (c - k) = k := by omega
  rw [h1, h2, List.append_assoc]

theorem structural_length (A : List Int) (f : Int) (a b : Nat) :
    (A ++ List.replicate a f ++ List.replicate b (f + 1)).length
      = A.length + a + b := by
  simp [List.length_append]
  omega

theorem structural_sum (A : List Int) (f : Int) (a b : Nat) :
    (A ++ List.replicate a f ++ List.replicate b (f + 1)).sum
      = A.sum + (a : Int) * f + (b : Int) * (f + 1) := by
  rw [List.sum_append, List.sum_append, sum_replicate_int, sum_replicate_int]

theorem structural_getD (A : List Int) (f : Int) (a b j : Nat) (hj : j < A.length + a + b) :
    (A ++ List.replicate a f ++ List.replicate b (f + 1)).getD j 0
      = if j < A.length then A.getD j 0 else if j < A.length + a then f else f + 1 := by
  by_cases h1 : j < A.length
  · rw [if_pos h1, List.append_assoc, getD_append_lt h1]
  · rw [if_neg h1]
    rw [List.append_assoc, List.getD_eq_getElem?_getD,
      List.getElem?_append_right (by omega)]
    by_cases h2 : j < A.length + a
    · rw [if_pos h2, List.getElem?_append, if_pos (by simp; omega),
        List.getElem?_replicate, if_pos (by omega)]
      rfl
    · rw [if_neg h2, List.getElem?_append_right (by simp; omega)]
      rw [List.getElem?_replicate, if_pos (by simp; omega)]
      rfl

theorem structural_mem {A : List Int} {f : Int} {a b : Nat} {x : Int}
    (hx : x ∈ A ++ List.replicate a f ++ List.replicate b (f + 1)) :
    x ∈ A ∨ x = f ∨ x = f + 1 := by
  rcases List.mem_append.mp hx with h | h
  · rcases List.mem_append.mp h with h2 | h2
    · exact Or.inl h2
    · exact Or.inr (Or.inl (List.eq_of_mem_replicate h2))
  · exact Or.inr (Or.inr (List.eq_of_mem_replicate h))

theorem chain'_replicate_le (a : Nat) (c : Int) :
    List.Chain' (· ≤ ·) (List.replicate a c) := by
  induction a with
  | zero => simp
  | succ n ih =>
    cases n with
    | zero => simp
    | succ n2 =>
      rw [List.replicate_succ, List.replicate_succ, List.chain'_cons,
        ← List.replicate_succ]
      exact ⟨le_rfl, by rw [List.replicate_succ] at ih; exact ih⟩

theorem chain'_structural (A : List Int) (f : Int) (a b : Nat)
    (hA : List.Chain' (· ≤ ·) A) (hAf : ∀ x ∈ A, x ≤ f) :
    List.Chain' (· ≤ ·) (A ++ List.replicate a f ++ List.replicate b (f + 1)) := by
  rw [List.append_assoc, List.chain'_append]
  refine ⟨hA, ?_, ?_⟩
  · rw [List.chain'_append]
    refine ⟨chain'_replicate_le a f, chain'_replicate_le b (f + 1), ?_⟩
    intro x hx y hy
    have hx2 := List.eq_of_mem_replicate (List.mem_of_mem_getLast? hx)
    have hy2 := List.eq_of_mem_replicate (List.mem_of_mem_head? hy)
    omega
  · intro x hx y hy
    have hx2 := hAf x (List.mem_of_mem_getLast? hx)
    have hy2 : y = f ∨ y = f + 1 := by
      rcases structural_mem (A := []) (by simpa using List.mem_of_mem_head? hy) with h | h | h
      · simp at h
      · exact Or.inl h
      · exact Or.inr h
    omega

theorem forall₂_le_of_getD (l1 l2 : List Int) (hlen : l1.length = l2.length)
    (h : ∀ j, j < l1.length → l1.getD j 0 ≤ l2.getD j 0) :
    List.Forall₂ (· ≤ ·) l1 l2 := by
  induction l1 generalizing l2 with
  | nil =>
    cases l2 with
    | nil => exact List.Forall₂.nil
    | cons y ys => simp at hlen
  | cons x xs ih =>
    cases l2 with
    | nil => simp at hlen
    | cons y ys =>
      refine List.Forall₂.cons (by simpa using h 0 (by simp)) ?_
      refine ih ys (by simpa using hlen) ?_
      intro j hj
      simpa using h (j + 1) (by simpa using Nat.succ_lt_succ hj)

/-! Water-level sums. -/

theorem minSum_mono (L : List Int) {c d : Int} (h : c ≤ d) :
    minSum L c ≤ minSum L d := by
  unfold minSum
  induction L with
  | nil => simp
  | cons x xs ih =>
    simp only [List.map_cons, List.sum_cons]
    have : min x c ≤ min x d := by omega
    omega

theorem sum_map_min_of_le {A : List Int} {c : Int} (h : ∀ x ∈ A, x ≤ c) :
    (A.map (fun x => min x c)).sum = A.sum := by
  induction A with
  | nil => simp
  | cons x xs ih =>
    simp only [List.map_cons, List.sum_cons]
    rw [min_eq_left (h x (by simp)), ih (fun y hy => h y (List.mem_cons_of_mem x hy))]

theorem sum_map_min_of_ge {B : List Int} {c : Int} (h : ∀ x ∈ B, c ≤ x) :
    (B.map (fun x => min x c)).sum = (B.length : Int) * c := by
  induction B with
  | nil => simp
  | cons x xs ih =>
    simp only [List.map_cons, List.sum_cons, List.length_cons]
    rw [min_eq_right (h x (by simp)), ih (fun y hy => h y (List.mem_cons_of_mem x hy))]
    push_cast
    ring

theorem minSum_split (L : List Int) (i : Nat) (c : Int) (hi : i ≤ L.length)
    (hle : ∀ x ∈ L.take i, x ≤ c) (hge : ∀ x ∈ L.drop i, c ≤ x) :
    minSum L c = (L.take i).sum + ((L.length : Int) - i) * c := by
  unfold minSum
  conv_lhs => rw [← List.take_append_drop i L]
  rw [List.map_append, List.sum_append, sum_map_min_of_le hle, sum_map_min_of_ge hge]
  have : ((L.drop i).length : Int) = (L.length : Int) - i := by
    rw [List.length_drop]
    omega
  rw [this]

theorem chain'_getD_le {L : List Int} (hc : List.Chain' (· ≤ ·) L)
    {i j : Nat} (hij : i ≤ j) (hj : j < L.length) :
    L.getD i 0 ≤ L.getD j 0 := by
  rcases eq_or_lt_of_le hij with rfl | hlt
  · exact le_rfl
  · have hp : List.Pairwise (· ≤ ·) L := (List.chain'_iff_pairwise).mp hc
    have hi : i < L.length := by omega
    rw [List.getD_eq_getElem L 0 hi, List.getD_eq_getElem L 0 hj]
    exact List.pairwise_iff_get.mp hp ⟨i, hi⟩ ⟨j, hj⟩ hlt

/-- Invariant of the reducer's cumulative-sum loop: started in a consistent
state whose processed prefix is `acc.reverse` and whose remaining total
exceeds the budget, the loop breaks at the first index `iB` where the
water-level cost `sum(L[0..iB-1]) + L[iB]·(n-iB)` exceeds `m`, returning the
processed prefix, that index, the length there, and that cost. -/
theorem reduceLoop_spec (L : List Int) (m : Int) :
    ∀ (rest acc : List Int) (i : Nat) (prev cumsum : Int),
      L = acc.reverse ++ rest →
      acc.length = i →
      cumsum = (acc.reverse).sum + prev * ((L.length : Int) - (i : Int)) →
      cumsum ≤ m →
      List.Chain' (· ≤ ·) (prev :: rest) →
      (acc.reverse).sum + rest.sum > m →
      prev = prevOf L i →
      ∃ (iB : Nat) (lB cB : Int),
        reduceLoop L.length m rest i prev cumsum acc = (L.take iB, iB, lB, cB) ∧
        i ≤ iB ∧ iB < L.length ∧
        L.getD iB 0 = lB ∧
        cB = (L.take iB).sum + lB * ((L.length : Int) - (iB : Int)) ∧
        m < cB ∧
        (L.take iB).sum + prevOf L iB * ((L.length : Int) - (iB : Int)) ≤ m := by
  intro rest
  induction rest with
  | nil =>
    intro acc i prev cumsum hL hlen hcs hcm hchain hsum hprev
    exfalso
    have hn : L.length = i := by rw [hL]; simp [hlen]
    have hz : (L.length : Int) - (i : Int) = 0 := by rw [hn]; ring
    rw [hz, mul_zero, add_zero] at hcs
    simp only [List.sum_nil, add_zero] at hsum
    omega
  | cons x rest2 ih =>
    intro acc i prev cumsum hL hlen hcs hcm hchain hsum hprev
    have hlenrev : (acc.reverse).length = i := by simp [hlen]
    have haccTake : L.take i = acc.reverse := by
      rw [hL, ← hlenrev, List.take_left]
    have hgetDi : L.getD i 0 = x := by
      rw [hL, ← hlenrev]
      exact getD_append_length _ _ _
    have hiLt : i < L.length := by
      rw [hL]
      simp [hlenrev]
    simp only [reduceLoop]
    by_cases hbr : cumsum + (x - prev) * ((L.length : Int) - (i : Int)) > m
    · rw [if_pos hbr]
      refine ⟨i, x, cumsum + (x - prev) * ((L.length : Int) - (i : Int)),
        by rw [haccTake], le_rfl, hiLt, hgetDi, ?_, hbr, ?_⟩
      · rw [haccTake, hcs]
        ring
      · rw [haccTake, ← hprev, hcs] at *
        exact hcm
    · rw [if_neg hbr]
      have hchain2 := (List.chain'_cons.mp hchain).2
      have hrevcons : ((x :: acc).reverse).sum = (acc.reverse).sum + x := by
        rw [List.reverse_cons, List.sum_append]
        simp
      have hcall := ih (x :: acc) (i + 1) x
        (cumsum + (x - prev) * ((L.length : Int) - (i : Int)))
        (by rw [List.reverse_cons, List.append_assoc, List.singleton_append]; exact hL)
        (by simp [hlen])
        (by rw [hrevcons, hcs]; push_cast; ring)
        (not_lt.mp hbr)
        hchain2
        (by rw [hrevcons]; rw [List.sum_cons] at hsum; omega)
        (by rw [prevOf, if_neg (Nat.succ_ne_zero i), Nat.add_sub_cancel, hgetDi])
      obtain ⟨iB, lB, cB, heq, hge, hlt, hg, hc, hm, hlast⟩ := hcall
      exact ⟨iB, lB, cB, heq, by omega, hlt, hg, hc, hm, hlast⟩

theorem sum_map_add_one (l : List Int) :
    (l.map (· + 1)).sum = l.sum + (l.length : Int) := by
  induction l with
  | nil => simp
  | cons x xs ih =>
    simp only [List.map_cons, List.sum_cons, List.length_cons, ih]
    push_cast
    ring

theorem incLastK_sum (l : List Int) (k : Nat) (hk : k ≤ l.length) :
    (incLastK l k).sum = l.sum + (k : Int) := by
  unfold incLastK
  rw [List.sum_append, sum_map_add_one, List.length_drop]
  have h1 : l.length - (l.length - k) = k := by omega
  rw [h1]
  have h2 := List.sum_take_add_sum_drop l (l.length - k)
  omega

/-- The main (strictly reducing) path of `reduce_list_of_lengths`: for a
sorted non-negative length vector and a target strictly between 0 and the
total, the function succeeds and its output is the original prefix up to the
break index `i`, then a block at the water level `f`, then the last `k`
entries at `f + 1`; together with the bounds and the water-level sums that
characterize `f` and `k`. -/
theorem reduce_main_props (L : List Int) (m : Int)
    (hmono : is_list_monotonically_increasing L = .ok true)
    (hnn : ∀ x ∈ L, 0 ≤ x) (hm : 0 < m) (hms : m < L.sum) :
    ∃ (out : List Int) (i k : Nat) (f : Int),
      reduce_list_of_lengths L m true = .ok out ∧
      out = L.take i ++ List.replicate (L.length - i - k) f ++ List.replicate k (f + 1) ∧
      i < L.length ∧ k < L.length - i ∧ 0 ≤ f ∧
      (∀ x ∈ L.take i, x ≤ f) ∧
      (∀ x ∈ L.drop i, f + 1 ≤ x) ∧
      out.length = L.length ∧
      List.Chain' (· ≤ ·) out ∧
      List.Forall₂ (· ≤ ·) out L ∧
      (∀ x ∈ out, 0 ≤ x) ∧
      out.sum = m ∧
      minSum L f = m - (k : Int) ∧
      m < minSum L (f + 1) := by
  obtain ⟨hLne, hchainL⟩ := (is_mono_ok_iff L).mp hmono
  have hchain0 : List.Chain' (· ≤ ·) ((0 : Int) :: L) := by
    cases L with
    | nil => simp
    | cons a as => exact List.chain'_cons.mpr ⟨hnn a (by simp), hchainL⟩
  obtain ⟨iB, lB, cB, heq, _, hiln, hgetD, hcB, hmcB, hlow⟩ :=
    reduceLoop_spec L m L [] 0 0 0 (by simp) rfl (by simp) (le_of_lt hm) hchain0
      (by simpa using hms) (by simp [prevOf])
  set R : Int := ((L.length - iB : Nat) : Int) with hRdef
  have hRcast : R = (L.length : Int) - (iB : Int) := by rw [hRdef]; omega
  have hRpos : (0 : Int) < R := by omega
  set d := ceilIntDiv (cB - m) R with hddef
  have hd1 : 1 ≤ d := ceilIntDiv_pos hRpos (by omega)
  have hK1 : cB - m ≤ R * d := le_mul_ceilIntDiv hRpos
  have hK2 : R * (d - 1) < cB - m := by
    by_contra hcon
    have h2 := (ceilIntDiv_le_iff hRpos).mpr (not_lt.mp hcon)
    omega
  set f := lB - d with hfdef
  set NEW := L.take iB ++ List.replicate (L.length - iB) f with hNEWdef
  have hcB2 : cB = (L.take iB).sum + lB * R := by rw [hcB, hRcast]
  have hNEWsum : NEW.sum = (L.take iB).sum + R * f := by
    rw [hNEWdef, List.sum_append, sum_replicate_int, ← hRdef]
  have hRf : R * f = R * lB - R * d := by rw [hfdef]; ring
  have hlBR : lB * R = R * lB := mul_comm _ _
  have hRd1 : R * (d - 1) = R * d - R := by ring
  set diffI := m - NEW.sum with hdiffdef
  have hdiff0 : 0 ≤ diffI := by
    rw [hdiffdef, hNEWsum, hRf]
    linarith
  have hdiffR : diffI < R := by
    rw [hdiffdef, hNEWsum, hRf]
    linarith
  have hkcast : ((diffI.toNat : Nat) : Int) = diffI := Int.toNat_of_nonneg hdiff0
  have hkltR : diffI.toNat < L.length - iB := by omega
  have hNEWlen : NEW.length = L.length := by
    rw [hNEWdef]
    simp
    omega
  have hincsum : (incLastK NEW diffI.toNat).sum = m := by
    rw [incLastK_sum NEW diffI.toNat (by omega), hkcast]
    omega
  have hred : reduce_list_of_lengths L m true = .ok (incLastK NEW diffI.toNat) := by
    simp only [reduce_list_of_lengths, hmono, Bool.not_true, Bool.false_eq_true, if_false,
      if_neg (not_le.mpr hms), if_neg (not_le.mpr hm), heq, ← hRdef, ← hddef, ← hfdef,
      ← hNEWdef, ← hdiffdef, if_neg (not_lt.mpr hdiff0), hincsum, beq_self_eq_true,
      Bool.and_false]
  have hout : incLastK NEW diffI.toNat
      = L.take iB ++ List.replicate (L.length - iB - diffI.toNat) f
          ++ List.replicate diffI.toNat (f + 1) := by
    rw [hNEWdef]
    exact incLastK_split _ _ _ _ (le_of_lt hkltR)
  -- bounds relating f to the neighbours of the break index
  have hprev_f : prevOf L iB ≤ f := by
    have hstep : cB - m ≤ R * (lB - prevOf L iB) := by
      have h3 : (L.take iB).sum + prevOf L iB * R ≤ m := by
        rw [hRcast]
        exact hlow
      have h4 : prevOf L iB * R = R * prevOf L iB := mul_comm _ _
      have h5 : R * (lB - prevOf L iB) = R * lB - R * prevOf L iB := by ring
      linarith
    have h6 : d ≤ lB - prevOf L iB := (ceilIntDiv_le_iff hRpos).mpr hstep
    omega
  have htakelen : (L.take iB).length = iB := by
    simp
    omega
  have htake_f : ∀ x ∈ L.take iB, x ≤ f := by
    intro x hx
    obtain ⟨j, hj, hjx⟩ := List.mem_iff_getElem.mp hx
    have hjiB : j < iB := by rw [htakelen] at hj; exact hj
    have hx2 : x = L.getD j 0 := by
      rw [List.getD_eq_getElem L 0 (by omega), ← List.getElem_take L, hjx]
    have hstep : L.getD j 0 ≤ L.getD (iB - 1) 0 :=
      chain'_getD_le hchainL (by omega) (by omega)
    have hPrev : prevOf L iB = L.getD (iB - 1) 0 := by
      rw [prevOf, if_neg (by omega)]
    rw [hx2]
    omega
  have hdrop_f : ∀ x ∈ L.drop iB, f + 1 ≤ x := by
    intro x hx
    obtain ⟨j, hj, hjx⟩ := List.mem_iff_getElem.mp hx
    have hjlen : iB + j < L.length := by
      rw [List.length_drop] at hj
      omega
    have hx2 : x = L.getD (iB + j) 0 := by
      rw [List.getD_eq_getElem L 0 hjlen, ← hjx, List.getElem_drop']
    have hstep : L.getD iB 0 ≤ L.getD (iB + j) 0 :=
      chain'_getD_le hchainL (by omega) hjlen
    rw [hx2]
    omega
  have h0f : 0 ≤ f := by
    rcases Nat.eq_zero_or_pos iB with h0 | h0
    · have h1 := hprev_f
      rw [prevOf, if_pos h0] at h1
      exact h1
    · have hmem : L.getD (iB - 1) 0 ∈ L := getD_mem (by omega)
      have h1 := hprev_f
      rw [prevOf, if_neg (by omega)] at h1
      exact le_trans (hnn _ hmem) h1
  -- derived properties of the output
  have hlen_out : (incLastK NEW diffI.toNat).length = L.length := by
    rw [hout, structural_length, htakelen]
    omega
  have hchain_take : List.Chain' (· ≤ ·) (L.take iB) :=
    List.chain'_iff_pairwise.mpr
      (List.Pairwise.sublist (List.take_sublist iB L)
        (List.chain'_iff_pairwise.mp hchainL))
  have hchain_out : List.Chain' (· ≤ ·) (incLastK NEW diffI.toNat) := by
    rw [hout]
    exact chain'_structural _ _ _ _ hchain_take htake_f
  have hforall : List.Forall₂ (· ≤ ·) (incLastK NEW diffI.toNat) L := by
    refine forall₂_le_of_getD _ _ hlen_out ?_
    intro j hj
    rw [hlen_out] at hj
    rw [hout, structural_getD _ _ _ _ j (by rw [htakelen]; omega), htakelen]
    by_cases h1 : j < iB
    · rw [if_pos h1, getD_take_eq h1]
    · rw [if_neg h1]
      have hmem : L.getD j 0 ∈ L.drop iB := getD_mem_drop (by omega) hj
      have hge := hdrop_f _ hmem
      by_cases h2 : j < iB + (L.length - iB - diffI.toNat)
      · rw [if_pos h2]
        omega
      · rw [if_neg h2]
        omega
  have hnn_out : ∀ x ∈ incLastK NEW diffI.toNat, 0 ≤ x := by
    intro x hx
    rw [hout] at hx
    rcases structural_mem hx with h1 | h1 | h1
    · exact hnn x (List.mem_of_mem_take h1)
    · omega
    · omega
  have hminf : minSum L f = m - ((diffI.toNat : Nat) : Int) := by
    rw [minSum_split L iB f (le_of_lt hiln) htake_f
      (fun x hx => by have := hdrop_f x hx; omega)]
    rw [← hRcast, hkcast]
    rw [hNEWsum] at hdiffdef
    linarith
  have hminf1 : m < minSum L (f + 1) := by
    rw [minSum_split L iB (f + 1) (le_of_lt hiln)
      (fun x hx => by have := htake_f x hx; omega) hdrop_f]
    rw [← hRcast]
    have hexp : R * (f + 1) = R * f + R := by ring
    rw [hNEWsum] at hdiffdef
    linarith
  exact ⟨incLastK NEW diffI.toNat, iB, diffI.toNat, f, hred, hout, hiln, hkltR, h0f,
    htake_f, hdrop_f, hlen_out, hchain_out, hforall, hnn_out, hincsum, hminf, hminf1⟩

/-- The no-op fast path: a sorted vector whose total is within the target is
returned unchanged. -/
theorem reduce_fast (L : List Int) (m : Int) (b : Bool)
    (hmono : is_list_monotonically_increasing L = .ok true) (h : L.sum ≤ m) :
    reduce_list_of_lengths L m b = .ok L := by
  simp only [reduce_list_of_lengths, hmono, Bool.not_true, Bool.false_eq_true, if_false,
    if_pos h]

/-- The infeasible path: a non-positive target yields the all-zero vector. -/
theorem reduce_zeros (L : List Int) (m : Int) (b : Bool)
    (hmono : is_list_monotonically_increasing L = .ok true)
    (h1 : ¬ L.sum ≤ m) (h2 : m ≤ 0) :
    reduce_list_of_lengths L m b = .ok (List.replicate L.length 0) := by
  simp only [reduce_list_of_lengths, hmono, Bool.not_true, Bool.false_eq_true, if_false,
    if_neg h1, if_pos h2]

/-- Claim C1: for every sorted (per the source's own check) list of
non-negative lengths and target `0 < m < sum`, the reducer returns a list of
the same length, ascending, element-wise at most the input, non-negative,
summing exactly to `m`; and for `m ≤ 0` it returns the all-zero list of the
same length. -/
theorem claim_C1 (L : List Int) (m : Int)
    (hmono : is_list_monotonically_increasing L = .ok true)
    (hnn : ∀ x ∈ L, 0 ≤ x) :
    (0 < m → m < L.sum →
      ∃ out, reduce_list_of_lengths L m true = .ok out ∧
        out.length = L.length ∧ List.Chain' (· ≤ ·) out ∧
        List.Forall₂ (· ≤ ·) out L ∧ (∀ x ∈ out, 0 ≤ x) ∧ out.sum = m) ∧
    (m ≤ 0 → reduce_list_of_lengths L m true = .ok (List.replicate L.length 0)) := by
  constructor
  · intro hm hms
    obtain ⟨out, i, k, f, hred, _, _, _, _, _, _, hlen, hchain, hfor, hnnout, hsum, _, _⟩ :=
      reduce_main_props L m hmono hnn hm hms
    exact ⟨out, hred, hlen, hchain, hfor, hnnout, hsum⟩
  · intro hm2
    by_cases hfast : L.sum ≤ m
    · have hz : ∀ x ∈ L, x = 0 := all_zero_of_sum_zero hnn (by omega)
      have hrepl : L = List.replicate L.length 0 := by
        rw [List.eq_replicate_iff]
        exact ⟨rfl, hz⟩
      rw [reduce_fast L m true hmono hfast, ← hrepl]
    · exact reduce_zeros L m true hmono hfast hm2

/-- Witness for claim C1: Scenario A of the spec (`L = [2,5,9]`, `m = 10`)
and the zeros case at `m = -1`. -/
theorem claim_C1_witness :
    (∃ out, reduce_list_of_lengths [2, 5, 9] 10 true = .ok out ∧
      out.length = ([2, 5, 9] : List Int).length ∧ List.Chain' (· ≤ ·) out ∧
      List.Forall₂ (· ≤ ·) out [2, 5, 9] ∧ (∀ x ∈ out, 0 ≤ x) ∧ out.sum = 10) ∧
    reduce_list_of_lengths [2, 5, 9] (-1) true = .ok (List.replicate 3 0) :=
  ⟨(claim_C1 [2, 5, 9] 10 (by decide) (by decide)).1 (by decide) (by decide),
   (claim_C1 [2, 5, 9] (-1) (by decide) (by decide)).2 (by decide)⟩

/-- Claim C8: the reducer is idempotent.  Whenever the total is within the
target the input comes back as-is, and re-reducing any successful output at
the same target returns it unchanged. -/
theorem claim_C8 (L : List Int) (m : Int)
    (hmono : is_list_monotonically_increasing L = .ok true)
    (hnn : ∀ x ∈ L, 0 ≤ x) :
    (L.sum ≤ m → reduce_list_of_lengths L m true = .ok L) ∧
    (∀ out, reduce_list_of_lengths L m true = .ok out →
      reduce_list_of_lengths out m true = .ok out) := by
  constructor
  · exact fun h => reduce_fast L m true hmono h
  · intro out hout
    by_cases hfast : L.sum ≤ m
    · rw [reduce_fast L m true hmono hfast] at hout
      obtain rfl := Except.ok.inj hout
      exact reduce_fast L m true hmono hfast
    · by_cases hz : m ≤ 0
      · rw [reduce_zeros L m true hmono hfast hz] at hout
        obtain rfl := Except.ok.inj hout
        have hLne := ((is_mono_ok_iff L).mp hmono).1
        have hn : L.length ≠ 0 := fun hcon => hLne (List.length_eq_zero.mp hcon)
        have hmono2 : is_list_monotonically_increasing (List.replicate L.length 0)
            = .ok true := by
          rw [is_mono_ok_iff]
          refine ⟨?_, chain'_replicate_le _ _⟩
          intro hcon
          have := congrArg List.length hcon
          simp at this
          exact hLne this
        have hsum0 : (List.replicate L.length 0).sum = 0 := by
          simp
        by_cases hm0 : (List.replicate L.length 0).sum ≤ m
        · exact reduce_fast _ m true hmono2 hm0
        · rw [reduce_zeros _ m true hmono2 hm0 hz]
          simp
      · have hm : 0 < m := by omega
        have hms : m < L.sum := not_le.mp hfast
        obtain ⟨out2, i, k, f, hred, _, _, _, _, _, _, hlen, hchain, _, _, hsum, _, _⟩ :=
          reduce_main_props L m hmono hnn hm hms
        rw [hred] at hout
        obtain rfl := Except.ok.inj hout
        have hne2 : out2 ≠ [] := by
          intro hcon
          rw [hcon] at hlen
          simp at hlen
          exact ((is_mono_ok_iff L).mp hmono).1 (List.length_eq_zero.mp hlen.symm)
        have hmono2 : is_list_monotonically_increasing out2 = .ok true :=
          (is_mono_ok_iff out2).mpr ⟨hne2, hchain⟩
        exact reduce_fast out2 m true hmono2 (le_of_eq hsum)

/-- Witness for claim C8: the fast path at `[2,5,9]` with target 20, and
idempotence of the reduced output `[2,3,4]` of `[2,5,9]` at target 9. -/
theorem claim_C8_witness :
    reduce_list_of_lengths [2, 5, 9] 20 true = .ok [2, 5, 9] ∧
    reduce_list_of_lengths [2, 3, 4] 9 true = .ok [2, 3, 4] :=
  ⟨(claim_C8 [2, 5, 9] 20 (by decide) (by decide)).1 (by decide),
   (claim_C8 [2, 5, 9] 9 (by decide) (by decide)).2 [2, 3, 4] (by rfl)⟩

theorem forall₂_le_refl (l : List Int) : List.Forall₂ (· ≤ ·) l l :=
  List.forall₂_same.mpr (fun _ _ => le_rfl)

theorem forall₂_zeros_le {L : List Int} (hnn : ∀ x ∈ L, 0 ≤ x) :
    List.Forall₂ (· ≤ ·) (List.replicate L.length 0) L := by
  refine forall₂_le_of_getD _ _ (by simp) ?_
  intro j hj
  simp only [List.length_replicate] at hj
  rw [getD_replicate_lt hj]
  exact hnn _ (getD_mem hj)

/-- Claim C4: for a fixed sorted list of non-negative lengths, a smaller
target never yields a larger entry anywhere: the outputs for targets
`m1 ≤ m2` compare element-wise. -/
theorem claim_C4 (L : List Int) (m1 m2 : Int)
    (hmono : is_list_monotonically_increasing L = .ok true)
    (hnn : ∀ x ∈ L, 0 ≤ x) (h12 : m1 ≤ m2) :
    ∃ out1 out2, reduce_list_of_lengths L m1 true = .ok out1 ∧
      reduce_list_of_lengths L m2 true = .ok out2 ∧
      List.Forall₂ (· ≤ ·) out1 out2 := by
  by_cases hfast2 : L.sum ≤ m2
  · -- the larger target is a no-op: out2 = L, and every path's output is ≤ L
    by_cases hfast1 : L.sum ≤ m1
    · exact ⟨L, L, reduce_fast L m1 true hmono hfast1,
        reduce_fast L m2 true hmono hfast2, forall₂_le_refl L⟩
    · by_cases hz1 : m1 ≤ 0
      · exact ⟨_, L, reduce_zeros L m1 true hmono hfast1 hz1,
          reduce_fast L m2 true hmono hfast2, forall₂_zeros_le hnn⟩
      · obtain ⟨out1, i, k, f, hred, _, _, _, _, _, _, _, _, hfor, _, _, _, _⟩ :=
          reduce_main_props L m1 hmono hnn (by omega) (not_le.mp hfast1)
        exact ⟨out1, L, hred, reduce_fast L m2 true hmono hfast2, hfor⟩
  · have hfast1 : ¬ L.sum ≤ m1 := fun h => hfast2 (le_trans h h12)
    by_cases hz2 : m2 ≤ 0
    · -- both targets infeasible: both outputs are the zero vector
      have hz1 : m1 ≤ 0 := by omega
      exact ⟨_, _, reduce_zeros L m1 true hmono hfast1 hz1,
        reduce_zeros L m2 true hmono hfast2 hz2, forall₂_le_refl _⟩
    · obtain ⟨out2, i2, k2, f2, hred2, hout2, hi2, hk2, h0f2, htake2, hdrop2, hlen2,
        _, _, hnnout2, _, hmin2, hmin2s⟩ :=
        reduce_main_props L m2 hmono hnn (by omega) (not_le.mp hfast2)
      by_cases hz1 : m1 ≤ 0
      · -- zeros vs main output: 0 ≤ every entry of out2
        refine ⟨_, out2, reduce_zeros L m1 true hmono hfast1 hz1, hred2, ?_⟩
        refine forall₂_le_of_getD _ _ (by simp [hlen2]) ?_
        intro j hj
        simp only [List.length_replicate] at hj
        rw [getD_replicate_lt hj]
        exact hnnout2 _ (getD_mem (by omega))
      · -- both targets on the strictly-reducing path
        obtain ⟨out1, i1, k1, f1, hred1, hout1, hi1, hk1, h0f1, htake1, hdrop1, hlen1,
          _, _, _, _, hmin1, hmin1s⟩ :=
          reduce_main_props L m1 hmono hnn (by omega) (not_le.mp hfast1)
        refine ⟨out1, out2, hred1, hred2, ?_⟩
        have hf12 : f1 ≤ f2 := by
          by_contra hcon
          push_neg at hcon
          have hmono12 : minSum L (f2 + 1) ≤ minSum L f1 := minSum_mono L (by omega)
          omega
        have hkey : f1 = f2 → (k1 : Int) ≤ (k2 : Int) := by
          intro hfe
          rw [hfe] at hmin1
          omega
        have ht1 : (L.take i1).length = i1 := by simp; omega
        have ht2 : (L.take i2).length = i2 := by simp; omega
        refine forall₂_le_of_getD _ _ (by rw [hlen1, hlen2]) ?_
        intro j hj
        rw [hlen1] at hj
        rw [hout1, hout2,
          structural_getD (L.take i1) f1 (L.length - i1 - k1) k1 j (by rw [ht1]; omega),
          structural_getD (L.take i2) f2 (L.length - i2 - k2) k2 j (by rw [ht2]; omega),
          ht1, ht2]
        by_cases hj1 : j < i1
        · rw [if_pos hj1, getD_take_eq hj1]
          have hF1 := htake1 _ (getD_mem_take hj1 (by omega))
          by_cases hj2 : j < i2
          · rw [if_pos hj2, getD_take_eq hj2]
          · rw [if_neg hj2]
            by_cases hj3 : j < i2 + (L.length - i2 - k2)
            · rw [if_pos hj3]
              omega
            · rw [if_neg hj3]
              omega
        · rw [if_neg hj1]
          have hF2 := hdrop1 _ (@getD_mem_drop L i1 j (by omega) (by omega))
          by_cases hj1b : j < i1 + (L.length - i1 - k1)
          · rw [if_pos hj1b]
            by_cases hj2 : j < i2
            · rw [if_pos hj2, getD_take_eq hj2]
              omega
            · rw [if_neg hj2]
              by_cases hj3 : j < i2 + (L.length - i2 - k2)
              · rw [if_pos hj3]
                omega
              · rw [if_neg hj3]
                omega
          · rw [if_neg hj1b]
            by_cases hj2 : j < i2
            · rw [if_pos hj2, getD_take_eq hj2]
              omega
            · rw [if_neg hj2]
              by_cases hj3 : j < i2 + (L.length - i2 - k2)
              · rw [if_pos hj3]
                rcases eq_or_lt_of_le hf12 with hfe | hflt
                · exfalso
                  have hkk := hkey hfe
                  omega
                · omega
              · rw [if_neg hj3]
                omega

/-- Witness for claim C4 at `L = [2,5,9]`, targets 5 and 10. -/
theorem claim_C4_witness :
    ∃ out1 out2, reduce_list_of_lengths [2, 5, 9] 5 true = .ok out1 ∧
      reduce_list_of_lengths [2, 5, 9] 10 true = .ok out2 ∧
      List.Forall₂ (· ≤ ·) out1 out2 :=
  claim_C4 [2, 5, 9] 5 10 (by decide) (by decide) (by decide)

/-! Lemmas for claim C7: the candidate truncation never touches protected keys. -/

theorem mem_insertByKey {α : Type} (key : α → Nat) (r x : α) :
    ∀ l : List α, x ∈ insertByKey key r l → x = r ∨ x ∈ l := by
  intro l
  induction l with
  | nil => simp [insertByKey]
  | cons y ys ih =>
    rw [insertByKey]
    by_cases h : key r ≤ key y
    · rw [if_pos h]
      intro hx
      rcases List.mem_cons.mp hx with h1 | h1
      · exact Or.inl h1
      · exact Or.inr h1
    · rw [if_neg h]
      intro hx
      rcases List.mem_cons.mp hx with h1 | h1
      · exact Or.inr (by simp [h1])
      · rcases ih h1 with h2 | h2
        · exact Or.inl h2
        · exact Or.inr (List.mem_cons_of_mem y h2)

theorem mem_sortByKey {α : Type} (key : α → Nat) (x : α) :
    ∀ l : List α, x ∈ sortByKey key l → x ∈ l := by
  intro l
  induction l with
  | nil => simp [sortByKey]
  | cons y ys ih =>
    rw [sortByKey]
    intro hx
    rcases mem_insertByKey key y x _ hx with h1 | h1
    · simp [h1]
    · exact List.mem_cons_of_mem y (ih h1)

theorem buildCandRecords_key_not_protected (tok : Text → List (Nat × Nat))
    (cands : List Cand) (protectedKeys : List String) (r : CandRecord)
    (hr : r ∈ buildCandRecords tok cands protectedKeys) :
    r.key ∉ protectedKeys := by
  rw [buildCandRecords] at hr
  rw [List.mem_flatten] at hr
  obtain ⟨sub, hsub, hrsub⟩ := hr
  rw [List.mem_map] at hsub
  obtain ⟨tc, _, rfl⟩ := hsub
  rw [List.mem_filterMap] at hrsub
  obtain ⟨kv, _, hkv⟩ := hrsub
  by_cases hprot : kv.1 ∈ protectedKeys
  · rw [if_pos hprot] at hkv
    exact absurd hkv (by simp)
  · rw [if_neg hprot] at hkv
    cases hv : kv.2 with
    | none => rw [hv] at hkv; exact absurd hkv (by simp)
    | some v =>
      rw [hv] at hkv
      have : r.key = kv.1 := by
        have := Option.some.inj hkv
        rw [← this]
      rw [this]
      exact hprot

theorem lookup_setDictValue (d : List (String × Option Text)) (k : String)
    (v : Option Text) (p : String) (hne : k ≠ p) :
    (setDictValue d k v).lookup p = d.lookup p := by
  induction d with
  | nil => simp [setDictValue]
  | cons kv rest ih =>
    rw [setDictValue, List.map_cons]
    by_cases h1 : kv.1 = k
    · rw [if_pos h1]
      have hpk : (p == kv.1) = false := by
        rw [beq_eq_false_iff_ne]
        rw [h1]
        exact fun hc => hne hc.symm
      rw [← Prod.mk.eta (p := kv), List.lookup_cons, List.lookup_cons, hpk]
      exact ih
    · rw [if_neg h1]
      rw [← Prod.mk.eta (p := kv), List.lookup_cons, List.lookup_cons]
      cases hpk : (p == kv.1) with
      | true => rfl
      | false => exact ih

theorem candWriteStep_preserves (tok : Text → List (Nat × Nat)) (p : String)
    (cs cs2 : List Cand) (rr : CandRecord × Int) (hkey : rr.1.key ≠ p)
    (h : candWriteStep tok cs rr = .ok cs2) :
    cs2.length = cs.length ∧
    ∀ j : Nat, cs2[j]?.map (fun c => c.elem_dict.lookup p)
      = cs[j]?.map (fun c => c.elem_dict.lookup p) := by
  rw [candWriteStep] at h
  by_cases hskip : rr.2 ≥ (rr.1.length : Int)
  · rw [if_pos hskip] at h
    obtain rfl := Except.ok.inj h
    exact ⟨rfl, fun j => rfl⟩
  · rw [if_neg hskip] at h
    split at h
    · exact absurd h (by simp)
    · obtain rfl := Except.ok.inj h
      rw [setCandValue]
      cases hidx : cs[rr.1.index]? with
      | none => exact ⟨rfl, fun j => rfl⟩
      | some c =>
        refine ⟨List.length_set cs _ _, ?_⟩
        intro j
        rw [List.getElem?_set]
        by_cases hj : rr.1.index = j
        · rw [if_pos hj]
          have hlt : rr.1.index < cs.length := by
            by_contra hcon
            rw [List.getElem?_eq_none (by omega)] at hidx
            exact Option.noConfusion hidx
          rw [if_pos hlt, ← hj, hidx]
          simp only [Option.map_some']
          rw [lookup_setDictValue _ _ _ _ hkey]
        · rw [if_neg hj]

theorem candWriteFold_preserves (tok : Text → List (Nat × Nat)) (p : String) :
    ∀ (pairs : List (CandRecord × Int)), (∀ rr ∈ pairs, rr.1.key ≠ p) →
    ∀ cs cs2 : List Cand, List.foldlM (candWriteStep tok) cs pairs = .ok cs2 →
      cs2.length = cs.length ∧
      ∀ j : Nat, cs2[j]?.map (fun c => c.elem_dict.lookup p)
        = cs[j]?.map (fun c => c.elem_dict.lookup p) := by
  intro pairs
  induction pairs with
  | nil =>
    intro _ cs cs2 h
    obtain rfl := Except.ok.inj h
    exact ⟨rfl, fun j => rfl⟩
  | cons rr rest ih =>
    intro hk cs cs2 h
    rw [List.foldlM_cons] at h
    cases hstep : candWriteStep tok cs rr with
    | error e =>
      rw [hstep] at h
      have h4 : (Except.error e : Except PyErr (List Cand)) = .ok cs2 := h
      exact Except.noConfusion h4
    | ok cs1 =>
      rw [hstep] at h
      have h3 : List.foldlM (candWriteStep tok) cs1 rest = .ok cs2 := h
      have h1 := candWriteStep_preserves tok p cs cs1 rr (hk rr (by simp)) hstep
      have h2 := ih (fun r2 hr2 => hk r2 (List.mem_cons_of_mem rr hr2)) cs1 cs2 h3
      exact ⟨h2.1.trans h1.1, fun j => (h2.2 j).trans (h1.2 j)⟩

/-- Claim C7: `truncate_cands_turn` never changes the value of a protected
key of any candidate's `elem_dict`; records are built only from
non-protected keys, so every write-back targets a non-protected key. -/
theorem claim_C7 (tok : Text → List (Nat × Nat)) (cands : List Cand) (ntr : Int)
    (protectedKeys : List String) (removeEmpty : Bool) (out : List Cand)
    (h : truncate_cands_turn tok cands ntr protectedKeys removeEmpty = .ok out)
    (p : String) (hp : p ∈ protectedKeys) :
    out.length = cands.length ∧
    ∀ j : Nat, out[j]?.map (fun c => c.elem_dict.lookup p)
      = cands[j]?.map (fun c => c.elem_dict.lookup p) := by
  by_cases hntr : ntr ≤ 0
  · simp only [truncate_cands_turn, if_pos hntr] at h
    obtain rfl := Except.ok.inj h
    exact ⟨rfl, fun j => rfl⟩
  · simp only [truncate_cands_turn, if_neg hntr] at h
    split at h
    · exact absurd h (by simp)
    · rename_i lengths_reduced hred
      split at h
      · exact absurd h (by simp)
      · rename_i cs hfold
        obtain rfl := Except.ok.inj h
        have hkeys : ∀ rr ∈ (sortByKey (fun r => r.length)
            (buildCandRecords tok cands protectedKeys)).zip lengths_reduced,
            rr.1.key ≠ p := by
          intro rr hrr
          have h1 := (List.of_mem_zip hrr).1
          have h2 := mem_sortByKey _ _ _ h1
          have h3 := buildCandRecords_key_not_protected tok cands protectedKeys _ h2
          intro hc
          rw [hc] at h3
          exact h3 hp
        have hfold2 := candWriteFold_preserves tok p _ hkeys cands cs hfold
        constructor
        · rw [List.length_map]
          exact hfold2.1
        · intro j
          rw [List.getElem?_map, Option.map_map]
          exact hfold2.2 j

/-- Witness for claim C7: one candidate with a protected "tag" and an
unprotected "text"; under budget pressure the text is center-truncated but
the tag's value is untouched. -/
theorem claim_C7_witness :
    ([Cand.mk [(("tag" : String), some (("div").data)),
        (("text" : String), some (("he...rld").data))]
        (("[[tag]] div\n[[text]] he...rld\n").data)].length
      = [Cand.mk [(("tag" : String), some (("div").data)),
          (("text" : String), some (("hello world").data))] []].length) ∧
    ∀ j : Nat,
      ([Cand.mk [(("tag" : String), some (("div").data)),
          (("text" : String), some (("he...rld").data))]
          (("[[tag]] div\n[[text]] he...rld\n").data)][j]?.map
        (fun c => c.elem_dict.lookup ("tag")))
      = ([Cand.mk [(("tag" : String), some (("div").data)),
          (("text" : String), some (("hello world").data))] []][j]?.map
        (fun c => c.elem_dict.lookup ("tag"))) :=
  claim_C7 charTok
    [Cand.mk [(("tag" : String), some (("div").data)),
      (("text" : String), some (("hello world").data))] []]
    3 ["tag", "bbox"] true
    [Cand.mk [(("tag" : String), some (("div").data)),
      (("text" : String), some (("he...rld").data))]
      (("[[tag]] div\n[[text]] he...rld\n").data)]
    (by rfl) ("tag") (by simp)
